import Mathlib

/-
  Shallow embedding of the fetch/update/storage core of the
  yfinance_scraper repository (fetcher.py, updater.py, storage.py,
  utils.py).  Remote calls, the file system and the clock are modelled
  as explicit oracle parameters; sleeping is recorded as a trace of
  structured events so that backoff formulas can be stated exactly.
-/

namespace YFS

/-! ## Rate limit constants (fetcher.py lines 25-32) -/

def RATE_LIMIT_DEFAULT_TIMEOUT : Nat := 30

def MAX_RETRIES : Nat := 5

def BATCH_SIZE : Nat := 50

def DAILY_LIMIT : Nat := 400

def REQUEST_DELAY : Nat := 2

def BATCH_DELAY : Nat := 5

def MAX_AGE_DAYS : Nat := 1

/-! ## Sleep trace events

A call to time.sleep with a fixed number of seconds is recorded as
fixedDelay; a backoff sleep of the form base + random.uniform(0, jitterMax)
is recorded structurally as backoff base jitterMax. -/

inductive SleepEvent where
  | fixedDelay (seconds : Nat)
  | backoff (base jitterMax : Nat)
deriving DecidableEq, Repr

/-! ## Remote outcomes

One remote attempt either returns data, returns an empty frame, raises an
error whose text contains the rate limit marker, or raises any other
error. -/

inductive RemoteOutcome (α : Type) where
  | ok (data : α)
  | empty
  | rateLimited
  | otherError
deriving DecidableEq, Repr

def RemoteOutcome.isOk {α : Type} : RemoteOutcome α → Bool
  | .ok _ => true
  | _ => false

/-! ## Retry loop of fetch_with_retry (fetcher.py lines 66-162) and
fetch_batch_price_data (lines 189-237)

Both loops have the same skeleton and differ only in the fixed delay
used on empty results and non-rate-limit errors (REQUEST_DELAY for the
single-ticker loop, BATCH_DELAY for the batch loop) and the jitter bound
of the backoff sleep (3 for the single-ticker loop, 5 for the batch
loop).  On success the loop returns at once; on any failure it sleeps
and consumes one attempt; falling off the end of the loop returns the
empty dict, modelled as none. -/

def runRetryAttempts {α : Type} (fixedSecs jitterMax : Nat)
    (remote : Nat → RemoteOutcome α) : List Nat → Option α × List SleepEvent
  | [] => (none, [])
  | i :: rest =>
    match remote i with
    | .ok d => (some d, [])
    | .empty =>
      let r := runRetryAttempts fixedSecs jitterMax remote rest
      (r.1, .fixedDelay fixedSecs :: r.2)
    | .rateLimited =>
      let r := runRetryAttempts fixedSecs jitterMax remote rest
      (r.1, .backoff (RATE_LIMIT_DEFAULT_TIMEOUT * 2 ^ i) jitterMax :: r.2)
    | .otherError =>
      let r := runRetryAttempts fixedSecs jitterMax remote rest
      (r.1, .fixedDelay fixedSecs :: r.2)

/-- fetcher.py lines 35-162: the cache fast path (lines 61-63, abstracted
into the cached parameter) followed by the retry loop over
range(max_retries). -/
def fetch_with_retry {α : Type} (cached : Option α)
    (remote : Nat → RemoteOutcome α) (maxRetries : Nat) :
    Option α × List SleepEvent :=
  match cached with
  | some d => (some d, [])
  | none => runRetryAttempts REQUEST_DELAY 3 remote (List.range maxRetries)

/-- fetcher.py lines 165-237: early return of the empty dict on an empty
ticker list, then the retry loop over range(max_retries) with BATCH_DELAY
pacing and jitter bound 5.  The ok payload is the per-ticker result map
(the single/multi ticker response-shape handling of lines 211-221 is
abstracted into the payload). -/
def fetch_batch_price_data {α : Type} (tickers : List String)
    (remote : Nat → RemoteOutcome (List (String × α))) (maxRetries : Nat) :
    List (String × α) × List SleepEvent :=
  if tickers = [] then ([], [])
  else
    match runRetryAttempts BATCH_DELAY 5 remote (List.range maxRetries) with
    | (none, es) => ([], es)
    | (some m, es) => (m, es)

/-! ## Per-ticker processing loop of fetch_data_for_tickers
(fetcher.py lines 322-441, data-dir-free shape)

For each ticker of the batch: if the batch price response has data for
it, that data is used; otherwise an individual fetch_with_retry is
issued, and a ticker whose individual fetch comes back empty is simply
skipped. -/

def processBatch {α : Type} (batch : List String)
    (priceData : String → Option α) (cachedOf : String → Option α)
    (perTicker : String → Nat → RemoteOutcome α) (maxRetries : Nat) :
    List (String × α) :=
  match batch with
  | [] => []
  | t :: rest =>
    let tail := processBatch rest priceData cachedOf perTicker maxRetries
    match priceData t with
    | some d => (t, d) :: tail
    | none =>
      match (fetch_with_retry (cachedOf t) (perTicker t) maxRetries).1 with
      | some d => (t, d) :: tail
      | none => tail

/-! ## Date-range fetch fallback paths (fetcher.py lines 566-622)

When the batch download of fetch_data_from_date raises a rate-limit
error, the handler sleeps RATE_LIMIT_DEFAULT_TIMEOUT * (2 ** batch_idx % 5)
+ uniform(0, 5) seconds (line 569; ** binds tighter than %, so this is
(2 ^ batch_idx) mod 5) and then retries each ticker individually.  The
individual loop (lines 575-619) breaks on an empty frame and breaks on
any non-rate-limit error; only a rate-limit error sleeps
RATE_LIMIT_DEFAULT_TIMEOUT * 2 ^ attempt + uniform(0, 3) and consumes a
further attempt. -/

def dateRangeBatchBackoffBase (batchIdx : Nat) : Nat :=
  RATE_LIMIT_DEFAULT_TIMEOUT * (2 ^ batchIdx % 5)

def dateRangeBatchRateLimitSleep (batchIdx : Nat) : SleepEvent :=
  .backoff (dateRangeBatchBackoffBase batchIdx) 5

def runDateRangeFallback {α : Type} (remote : Nat → RemoteOutcome α) :
    List Nat → Option α × List SleepEvent
  | [] => (none, [])
  | i :: rest =>
    match remote i with
    | .ok d => (some d, [])
    | .empty => (none, [])
    | .rateLimited =>
      let r := runDateRangeFallback remote rest
      (r.1, .backoff (RATE_LIMIT_DEFAULT_TIMEOUT * 2 ^ i) 3 :: r.2)
    | .otherError => (none, [])

def dateRangeFallbackFetch {α : Type} (remote : Nat → RemoteOutcome α)
    (maxRetries : Nat) : Option α × List SleepEvent :=
  runDateRangeFallback remote (List.range maxRetries)

/-! ## Incremental merge engine (updater.py lines 75-87)

A time-indexed dataset table is a list of (date, row) pairs, in storage
order; dates are datetimes modelled as integers.  The merge of a kind
present both in the existing store and in the fresh fetch concatenates
the two frames, drops rows whose index value reappears later in the
concatenation (pandas index.duplicated(keep=last): a row survives iff no
later row carries the same index), and sorts by index ascending. -/

def keys {α : Type} (l : List (Int × α)) : List Int :=
  l.map Prod.fst

def drop_duplicated_keep_last {α : Type} : List (Int × α) → List (Int × α)
  | [] => []
  | p :: l =>
    if p.1 ∈ keys l then drop_duplicated_keep_last l
    else p :: drop_duplicated_keep_last l

def insertRow {α : Type} (p : Int × α) : List (Int × α) → List (Int × α)
  | [] => [p]
  | q :: l => if p.1 ≤ q.1 then p :: q :: l else q :: insertRow p l

def sort_index {α : Type} : List (Int × α) → List (Int × α)
  | [] => []
  | p :: l => insertRow p (sort_index l)

def mergeTables {α : Type} (existing fresh : List (Int × α)) :
    List (Int × α) :=
  sort_index (drop_duplicated_keep_last (existing ++ fresh))

/-- updater.py lines 75-87, per dataset kind: a kind present in both
inputs is merged; a kind only in the fresh fetch is adopted as is; a
kind only in the existing store is kept as is. -/
def mergedKind {α : Type} (existing fresh : String → Option (List (Int × α)))
    (kind : String) : Option (List (Int × α)) :=
  match existing kind, fresh kind with
  | some e, some n => some (mergeTables e n)
  | none, some n => some n
  | some e, none => some e
  | none, none => none

/-! ## Chunker (utils.py lines 229-239)

chunk_list builds [items[i:i+chunk_size] for i in range(0, len(items),
chunk_size)].  Python range raises ValueError on step 0 and is empty
when the step moves away from the stop bound; a slice items[i:i+s] with
0 <= i and 0 < s is take s (drop i items). -/

def pyRangeLen (start stop step : Int) : Nat :=
  if 0 < step then
    if stop ≤ start then 0
    else ((stop - start).toNat + (step.toNat - 1)) / step.toNat
  else if start ≤ stop then 0
  else ((start - stop).toNat + ((-step).toNat - 1)) / (-step).toNat

def pyRange (start stop step : Int) : Except String (List Int) :=
  if step = 0 then .error "range() arg 3 must not be zero"
  else .ok ((List.range (pyRangeLen start stop step)).map
    (fun k : Nat => start + step * (k : Int)))

def chunk_list {α : Type} (items : List α) (chunk_size : Int) :
    Except String (List (List α)) :=
  (pyRange 0 items.length chunk_size).map
    (fun idxs => idxs.map
      (fun i => List.take chunk_size.toNat (List.drop i.toNat items)))

/-- Reference chunking by structural recursion: chunks of size n + 1. -/
def chunksOf {α : Type} (n : Nat) : List α → List (List α)
  | [] => []
  | x :: xs => List.take (n + 1) (x :: xs) :: chunksOf n (List.drop n xs)
termination_by l => l.length
decreasing_by simp [List.length_drop]; omega

/-! ## Store and file system model (storage.py, utils.py)

A parquet file holds a data frame; for freshness decisions only the
index matters: dtIndex is some list of dates when the index is a
DatetimeIndex and none otherwise, and nrows is the row count (df.empty
iff nrows = 0).  The file system maps directory paths to existence and
file paths to their parsed content (none: missing or unreadable). -/

structure PTable where
  dtIndex : Option (List Int)
  nrows : Nat
deriving DecidableEq, Repr

structure FileSystem where
  dirExists : String → Bool
  file : String → Option PTable

def joinPath (a b : String) : String := a ++ "/" ++ b

def tickerDirPath (dataDir ticker : String) : String :=
  joinPath dataDir ticker

def kindFilePath (dataDir ticker kind : String) : String :=
  joinPath (tickerDirPath dataDir ticker) (kind ++ ".parquet")

/-- storage.py lines 192-219 (through load_ticker_data, lines 126-161):
none when the ticker directory or the file is missing, none when the
loaded frame's index is not a DatetimeIndex, otherwise the index
maximum. -/
def get_latest_date (fs : FileSystem) (ticker dataDir dataType : String) :
    Option Int :=
  if fs.dirExists (tickerDirPath dataDir ticker) = false then none
  else
    match fs.file (kindFilePath dataDir ticker dataType) with
    | none => none
    | some t =>
      match t.dtIndex with
      | none => none
      | some dates => dates.max?

def SECONDS_PER_DAY : Int := 86400

/-- utils.py lines 168-196: false when the parquet file does not exist,
false when get_latest_date yields no date, otherwise true iff the
latest date is at least now minus max_age_days days (times in seconds). -/
def is_cache_valid (fs : FileSystem) (ticker dataDir dataType : String)
    (maxAgeDays now : Int) : Bool :=
  match fs.file (kindFilePath dataDir ticker dataType) with
  | none => false
  | some _ =>
    match get_latest_date fs ticker dataDir dataType with
    | none => false
    | some d => decide (now - maxAgeDays * SECONDS_PER_DAY ≤ d)

/-- One iteration of the loop of utils.py lines 217-223: a ticker with
no store directory goes to the uncached bucket, one with a directory but
an invalid cache to the outdated bucket, the rest to the valid bucket. -/
def prioStep (fs : FileSystem) (dataDir : String) (maxAgeDays now : Int)
    (acc : List String × List String × List String) (t : String) :
    List String × List String × List String :=
  if fs.dirExists (tickerDirPath dataDir t) = false then
    (acc.1 ++ [t], acc.2.1, acc.2.2)
  else if is_cache_valid fs t dataDir "ohlcv" maxAgeDays now = false then
    (acc.1, acc.2.1 ++ [t], acc.2.2)
  else (acc.1, acc.2.1, acc.2.2 ++ [t])

/-- utils.py lines 199-226: one pass over the tickers appending each to
the uncached, outdated or valid bucket, then the concatenation
uncached ++ outdated ++ valid.  is_cache_valid is called with its
default data_type, ohlcv. -/
def prioritize_tickers (fs : FileSystem) (tickers : List String)
    (dataDir : String) (maxAgeDays now : Int) : List String :=
  let buckets := tickers.foldl (prioStep fs dataDir maxAgeDays now) ([], [], [])
  buckets.1 ++ buckets.2.1 ++ buckets.2.2

/-! ## Persistence (storage.py lines 29-101)

save_ticker_data ensures the ticker directory exists, then writes one
parquet file per dataset kind, skipping a kind whose frame is None or
empty.  Writing is modelled as updating the file map; the success flag
tracks save_dataframe_to_parquet, which in this model always succeeds. -/

def writeFile (fs : FileSystem) (path : String) (t : PTable) : FileSystem :=
  { fs with file := fun p => if p = path then some t else fs.file p }

def mkTickerDir (fs : FileSystem) (dataDir ticker : String) : FileSystem :=
  { fs with dirExists := fun p =>
      if p = tickerDirPath dataDir ticker then true else fs.dirExists p }

def saveTickerDataGo (dataDir ticker : String) :
    List (String × Option PTable) → FileSystem → FileSystem
  | [], fs => fs
  | (kind, df) :: rest, fs =>
    match df with
    | none => saveTickerDataGo dataDir ticker rest fs
    | some t =>
      if t.nrows = 0 then saveTickerDataGo dataDir ticker rest fs
      else saveTickerDataGo dataDir ticker rest
        (writeFile fs (kindFilePath dataDir ticker kind) t)

/-- storage.py lines 52-78. -/
def save_ticker_data (ticker : String) (data : List (String × Option PTable))
    (dataDir : String) (fs : FileSystem) : FileSystem × Bool :=
  (saveTickerDataGo dataDir ticker data (mkTickerDir fs dataDir ticker), true)

/-- storage.py lines 81-101: save each ticker's data in turn. -/
def save_data_for_tickers
    (tickerData : List (String × List (String × Option PTable)))
    (dataDir : String) (fs : FileSystem) : FileSystem :=
  match tickerData with
  | [] => fs
  | (ticker, data) :: rest =>
    save_data_for_tickers rest dataDir
      (save_ticker_data ticker data dataDir fs).1

/-! ## Lemmas about the retry engine -/

theorem runRetryAttempts_all_rateLimited {α : Type} (fixedSecs jitterMax : Nat)
    (remote : Nat → RemoteOutcome α) (l : List Nat)
    (h : ∀ i ∈ l, remote i = .rateLimited) :
    runRetryAttempts fixedSecs jitterMax remote l =
      (none, l.map (fun i =>
        .backoff (RATE_LIMIT_DEFAULT_TIMEOUT * 2 ^ i) jitterMax)) := by
  induction l with
  | nil => rfl
  | cons i rest ih =>
    have hi := h i (List.mem_cons_self i rest)
    have ht := ih (fun j hj => h j (List.mem_cons_of_mem i hj))
    simp [runRetryAttempts, hi, ht]

theorem range_split (i n : Nat) (h : i < n) :
    ∃ l, List.range n = List.range i ++ i :: l := by
  induction n with
  | zero => omega
  | succ m ih =>
    rcases Nat.lt_succ_iff_lt_or_eq.mp h with h' | h'
    · obtain ⟨l, hl⟩ := ih h'
      exact ⟨l ++ [m], by rw [List.range_succ, hl]; simp⟩
    · subst h'
      exact ⟨[], by rw [List.range_succ]⟩

theorem runRetryAttempts_backoff_mem {α : Type} (fixedSecs jitterMax : Nat)
    (remote : Nat → RemoteOutcome α) (l₁ l₂ : List Nat) (i : Nat)
    (h₁ : ∀ j ∈ l₁, (remote j).isOk = false)
    (hi : remote i = .rateLimited) :
    SleepEvent.backoff (RATE_LIMIT_DEFAULT_TIMEOUT * 2 ^ i) jitterMax ∈
      (runRetryAttempts fixedSecs jitterMax remote (l₁ ++ i :: l₂)).2 := by
  induction l₁ with
  | nil => simp [runRetryAttempts, hi]
  | cons j rest ih =>
    have hj := h₁ j (List.mem_cons_self j rest)
    have hm := ih (fun k hk => h₁ k (List.mem_cons_of_mem j hk))
    rcases hrj : remote j with d | _ | _ | _ <;>
      simp [hrj, RemoteOutcome.isOk] at hj ⊢ <;>
      simp only [List.cons_append, runRetryAttempts, hrj] <;>
      exact List.mem_cons_of_mem _ hm

theorem runDateRangeFallback_backoff_mem {α : Type}
    (remote : Nat → RemoteOutcome α) (l₁ l₂ : List Nat) (i : Nat)
    (h₁ : ∀ j ∈ l₁, remote j = .rateLimited)
    (hi : remote i = .rateLimited) :
    SleepEvent.backoff (RATE_LIMIT_DEFAULT_TIMEOUT * 2 ^ i) 3 ∈
      (runDateRangeFallback remote (l₁ ++ i :: l₂)).2 := by
  induction l₁ with
  | nil => simp [runDateRangeFallback, hi]
  | cons j rest ih =>
    have hj := h₁ j (List.mem_cons_self j rest)
    have hm := ih (fun k hk => h₁ k (List.mem_cons_of_mem j hk))
    simp only [List.cons_append, runDateRangeFallback, hj]
    exact List.mem_cons_of_mem _ hm

theorem runRetryAttempts_otherError_then_ok {α : Type}
    (fixedSecs jitterMax : Nat) (remote : Nat → RemoteOutcome α)
    (l₁ l₂ : List Nat) (i : Nat) (d : α)
    (h₁ : ∀ j ∈ l₁, remote j = .otherError)
    (hi : remote i = .ok d) :
    runRetryAttempts fixedSecs jitterMax remote (l₁ ++ i :: l₂) =
      (some d, List.replicate l₁.length (.fixedDelay fixedSecs)) := by
  induction l₁ with
  | nil => simp [runRetryAttempts, hi]
  | cons j rest ih =>
    have hj := h₁ j (List.mem_cons_self j rest)
    have ht := ih (fun k hk => h₁ k (List.mem_cons_of_mem j hk))
    simp [runRetryAttempts, hj, ht, List.replicate_succ]

/-! ## Lemmas about the incremental merge -/

theorem keys_cons {α : Type} (p : Int × α) (l : List (Int × α)) :
    keys (p :: l) = p.1 :: keys l := rfl

theorem keys_append {α : Type} (l₁ l₂ : List (Int × α)) :
    keys (l₁ ++ l₂) = keys l₁ ++ keys l₂ :=
  List.map_append _ _ _

theorem mem_keys_ddl {α : Type} (l : List (Int × α)) (d : Int) :
    d ∈ keys (drop_duplicated_keep_last l) ↔ d ∈ keys l := by
  induction l with
  | nil => exact Iff.rfl
  | cons p rest ih =>
    by_cases hp : p.1 ∈ keys rest
    · simp only [drop_duplicated_keep_last]
      rw [if_pos hp, ih, keys_cons]
      constructor
      · exact fun h => List.mem_cons_of_mem _ h
      · intro h
        rcases List.mem_cons.mp h with h | h
        · exact h ▸ hp
        · exact h
    · simp only [drop_duplicated_keep_last]
      rw [if_neg hp, keys_cons, keys_cons, List.mem_cons, List.mem_cons, ih]

theorem keys_ddl_nodup {α : Type} (l : List (Int × α)) :
    (keys (drop_duplicated_keep_last l)).Nodup := by
  induction l with
  | nil => exact List.nodup_nil
  | cons p rest ih =>
    by_cases hp : p.1 ∈ keys rest
    · simp only [drop_duplicated_keep_last]
      rw [if_pos hp]
      exact ih
    · simp only [drop_duplicated_keep_last]
      rw [if_neg hp, keys_cons]
      exact List.nodup_cons.mpr ⟨fun h => hp ((mem_keys_ddl rest p.1).mp h), ih⟩

theorem ddl_eq_of_nodup {α : Type} (l : List (Int × α))
    (h : (keys l).Nodup) : drop_duplicated_keep_last l = l := by
  induction l with
  | nil => rfl
  | cons p rest ih =>
    rw [keys_cons] at h
    rcases List.nodup_cons.mp h with ⟨h1, h2⟩
    simp only [drop_duplicated_keep_last]
    rw [if_neg h1, ih h2]

theorem ddl_append_of_keys_subset {α : Type} (e n : List (Int × α))
    (h : ∀ d ∈ keys e, d ∈ keys n) :
    drop_duplicated_keep_last (e ++ n) = drop_duplicated_keep_last n := by
  induction e with
  | nil => rfl
  | cons p rest ih =>
    have hp : p.1 ∈ keys (rest ++ n) := by
      rw [keys_append, List.mem_append]
      exact Or.inr (h p.1 (by rw [keys_cons]; exact List.mem_cons_self _ _))
    rw [List.cons_append]
    simp only [drop_duplicated_keep_last]
    rw [if_pos hp]
    exact ih (fun d hd =>
      h d (by rw [keys_cons]; exact List.mem_cons_of_mem _ hd))

theorem mem_ddl_append_right {α : Type} (e n : List (Int × α))
    (hn : (keys n).Nodup) (p : Int × α) (hp : p ∈ n) :
    p ∈ drop_duplicated_keep_last (e ++ n) := by
  induction e with
  | nil =>
    rw [List.nil_append, ddl_eq_of_nodup n hn]
    exact hp
  | cons q rest ih =>
    rw [List.cons_append]
    simp only [drop_duplicated_keep_last]
    by_cases hq : q.1 ∈ keys (rest ++ n)
    · rw [if_pos hq]; exact ih
    · rw [if_neg hq]; exact List.mem_cons_of_mem _ ih

theorem mem_ddl_append_left {α : Type} (e n : List (Int × α))
    (he : (keys e).Nodup) (p : Int × α) (hp : p ∈ e)
    (hn : p.1 ∉ keys n) : p ∈ drop_duplicated_keep_last (e ++ n) := by
  induction e with
  | nil => cases hp
  | cons q rest ih =>
    rw [keys_cons] at he
    rcases List.nodup_cons.mp he with ⟨he1, he2⟩
    rw [List.cons_append]
    rcases List.mem_cons.mp hp with h | h
    · subst h
      have hq : p.1 ∉ keys (rest ++ n) := by
        rw [keys_append, List.mem_append]
        rintro (h' | h')
        · exact he1 h'
        · exact hn h'
      simp only [drop_duplicated_keep_last]
      rw [if_neg hq]
      exact List.mem_cons_self _ _
    · have hmem := ih he2 h
      simp only [drop_duplicated_keep_last]
      by_cases hq : q.1 ∈ keys (rest ++ n)
      · rw [if_pos hq]; exact hmem
      · rw [if_neg hq]; exact List.mem_cons_of_mem _ hmem

theorem insertRow_perm {α : Type} (p : Int × α) (l : List (Int × α)) :
    (insertRow p l).Perm (p :: l) := by
  induction l with
  | nil => exact List.Perm.refl _
  | cons q rest ih =>
    simp only [insertRow]
    by_cases h : p.1 ≤ q.1
    · rw [if_pos h]
    · rw [if_neg h]
      exact (ih.cons q).trans (List.Perm.swap p q rest)

theorem sort_index_perm {α : Type} (l : List (Int × α)) :
    (sort_index l).Perm l := by
  induction l with
  | nil => exact List.Perm.refl _
  | cons p rest ih =>
    exact (insertRow_perm p (sort_index rest)).trans (ih.cons p)

theorem insertRow_pairwise {α : Type} (p : Int × α) (l : List (Int × α))
    (h : l.Pairwise (fun a b => a.1 ≤ b.1)) :
    (insertRow p l).Pairwise (fun a b => a.1 ≤ b.1) := by
  induction l with
  | nil => simp [insertRow]
  | cons q rest ih =>
    rcases List.pairwise_cons.mp h with ⟨hq, hrest⟩
    simp only [insertRow]
    by_cases hpq : p.1 ≤ q.1
    · rw [if_pos hpq]
      refine List.pairwise_cons.mpr ⟨?_, h⟩
      intro b hb
      rcases List.mem_cons.mp hb with hb | hb
      · exact hb ▸ hpq
      · exact le_trans hpq (hq b hb)
    · rw [if_neg hpq]
      refine List.pairwise_cons.mpr ⟨?_, ih hrest⟩
      intro b hb
      have hb' : b ∈ p :: rest := (insertRow_perm p rest).mem_iff.mp hb
      rcases List.mem_cons.mp hb' with hb' | hb'
      · exact hb' ▸ le_of_not_le hpq
      · exact hq b hb'

theorem sort_index_pairwise {α : Type} (l : List (Int × α)) :
    (sort_index l).Pairwise (fun a b => a.1 ≤ b.1) := by
  induction l with
  | nil => simp [sort_index]
  | cons p rest ih => exact insertRow_pairwise p (sort_index rest) ih

theorem sort_index_eq_of_pairwise {α : Type} (l : List (Int × α))
    (h : l.Pairwise (fun a b => a.1 ≤ b.1)) : sort_index l = l := by
  induction l with
  | nil => rfl
  | cons p rest ih =>
    rcases List.pairwise_cons.mp h with ⟨hp, hrest⟩
    simp only [sort_index, ih hrest]
    cases rest with
    | nil => rfl
    | cons q rest' =>
      simp only [insertRow, if_pos (hp q (List.mem_cons_self q rest'))]

theorem keys_mergeTables_nodup {α : Type} (e n : List (Int × α)) :
    (keys (mergeTables e n)).Nodup := by
  have hperm : (keys (mergeTables e n)).Perm
      (keys (drop_duplicated_keep_last (e ++ n))) :=
    (sort_index_perm (drop_duplicated_keep_last (e ++ n))).map Prod.fst
  exact hperm.nodup_iff.mpr (keys_ddl_nodup (e ++ n))

theorem mergeTables_sorted_lt {α : Type} (e n : List (Int × α)) :
    (mergeTables e n).Pairwise (fun a b => a.1 < b.1) := by
  have hle : (mergeTables e n).Pairwise (fun a b => a.1 ≤ b.1) :=
    sort_index_pairwise _
  have hnd : (mergeTables e n).Pairwise (fun a b => a.1 ≠ b.1) :=
    List.pairwise_map.mp (keys_mergeTables_nodup e n)
  exact (hle.and hnd).imp (fun h => lt_of_le_of_ne h.1 h.2)

theorem mem_keys_mergeTables {α : Type} (e n : List (Int × α)) (d : Int) :
    d ∈ keys (mergeTables e n) ↔ d ∈ keys e ∨ d ∈ keys n := by
  have hperm : (keys (mergeTables e n)).Perm
      (keys (drop_duplicated_keep_last (e ++ n))) :=
    (sort_index_perm (drop_duplicated_keep_last (e ++ n))).map Prod.fst
  rw [hperm.mem_iff, mem_keys_ddl, keys_append, List.mem_append]

theorem mem_mergeTables_of_mem_fresh {α : Type} (e n : List (Int × α))
    (hn : (keys n).Nodup) (p : Int × α) (hp : p ∈ n) :
    p ∈ mergeTables e n :=
  (sort_index_perm _).mem_iff.mpr (mem_ddl_append_right e n hn p hp)

theorem mem_mergeTables_of_mem_existing {α : Type} (e n : List (Int × α))
    (he : (keys e).Nodup) (p : Int × α) (hp : p ∈ e)
    (hfresh : p.1 ∉ keys n) : p ∈ mergeTables e n :=
  (sort_index_perm _).mem_iff.mpr (mem_ddl_append_left e n he p hp hfresh)

/-- Claim C1: merging an existing time-indexed table with a freshly
fetched one (concat, drop duplicate index entries keeping the last,
i.e. freshly fetched, occurrence, sort ascending — updater.py lines
75-87) yields a table whose dates are exactly the union of the two
inputs' dates, each appearing once, strictly ascending; every freshly
fetched row appears in the result, and an existing row survives exactly
when its date is not refetched. -/
theorem update_merge_spec {α : Type} (existing fresh : List (Int × α))
    (hE : (keys existing).Nodup) (hN : (keys fresh).Nodup) :
    (mergeTables existing fresh).Pairwise (fun a b => a.1 < b.1) ∧
    (∀ d : Int, d ∈ keys (mergeTables existing fresh) ↔
      d ∈ keys existing ∨ d ∈ keys fresh) ∧
    (∀ p : Int × α, p ∈ fresh → p ∈ mergeTables existing fresh) ∧
    (∀ p : Int × α, p ∈ existing → p.1 ∉ keys fresh →
      p ∈ mergeTables existing fresh) :=
  ⟨mergeTables_sorted_lt existing fresh,
   mem_keys_mergeTables existing fresh,
   fun p hp => mem_mergeTables_of_mem_fresh existing fresh hN p hp,
   fun p hp hf => mem_mergeTables_of_mem_existing existing fresh hE p hp hf⟩

/-- Witness for C1: existing rows for dates 1..5 merged with fresh rows
for dates 4..8 give rows for exactly 1..8, dates 4 and 5 taken from the
fresh fetch. -/
theorem update_merge_spec_witness :
    ((keys [((1:Int),(1:Int)),(2,2),(3,3),(4,4),(5,5)]).Nodup ∧
     (keys [((4:Int),(40:Int)),(5,50),(6,60),(7,70),(8,80)]).Nodup) ∧
    ((mergeTables [((1:Int),(1:Int)),(2,2),(3,3),(4,4),(5,5)]
        [(4,40),(5,50),(6,60),(7,70),(8,80)]).Pairwise
        (fun a b => a.1 < b.1) ∧
     (∀ d : Int, d ∈ keys (mergeTables
        [((1:Int),(1:Int)),(2,2),(3,3),(4,4),(5,5)]
        [(4,40),(5,50),(6,60),(7,70),(8,80)]) ↔
      d ∈ keys [((1:Int),(1:Int)),(2,2),(3,3),(4,4),(5,5)] ∨
      d ∈ keys [((4:Int),(40:Int)),(5,50),(6,60),(7,70),(8,80)]) ∧
     (∀ p : Int × Int, p ∈ [((4:Int),(40:Int)),(5,50),(6,60),(7,70),(8,80)] →
      p ∈ mergeTables [((1:Int),(1:Int)),(2,2),(3,3),(4,4),(5,5)]
        [(4,40),(5,50),(6,60),(7,70),(8,80)]) ∧
     (∀ p : Int × Int, p ∈ [((1:Int),(1:Int)),(2,2),(3,3),(4,4),(5,5)] →
      p.1 ∉ keys [((4:Int),(40:Int)),(5,50),(6,60),(7,70),(8,80)] →
      p ∈ mergeTables [((1:Int),(1:Int)),(2,2),(3,3),(4,4),(5,5)]
        [(4,40),(5,50),(6,60),(7,70),(8,80)])) ∧
    mergeTables [((1:Int),(1:Int)),(2,2),(3,3),(4,4),(5,5)]
        [(4,40),(5,50),(6,60),(7,70),(8,80)] =
      [(1,1),(2,2),(3,3),(4,40),(5,50),(6,60),(7,70),(8,80)] :=
  ⟨⟨by decide, by decide⟩,
   update_merge_spec _ _ (by decide) (by decide),
   by decide⟩

/-- Claim C7: merging a table whose index has no duplicates with itself
is a no-op up to ordering — the result is a permutation of the input
with the same row count and no duplicated dates, and equals the input
exactly when the input was sorted ascending (as every persisted table
is). -/
theorem merge_self_idempotent {α : Type} (t : List (Int × α))
    (h : (keys t).Nodup) :
    (mergeTables t t).Perm t ∧
    (mergeTables t t).length = t.length ∧
    (keys (mergeTables t t)).Nodup ∧
    (t.Pairwise (fun a b => a.1 ≤ b.1) → mergeTables t t = t) := by
  have hdd : drop_duplicated_keep_last (t ++ t) = t := by
    rw [ddl_append_of_keys_subset t t (fun d hd => hd), ddl_eq_of_nodup t h]
  have hm : mergeTables t t = sort_index t := by
    rw [mergeTables, hdd]
  refine ⟨?_, ?_, keys_mergeTables_nodup t t, ?_⟩
  · rw [hm]; exact sort_index_perm t
  · rw [hm]; exact (sort_index_perm t).length_eq
  · intro hs; rw [hm]; exact sort_index_eq_of_pairwise t hs

/-- Witness for C7 at a concrete two-row table. -/
theorem merge_self_idempotent_witness :
    (keys [((1:Int),(10:Int)),(2,20)]).Nodup ∧
    ((mergeTables [((1:Int),(10:Int)),(2,20)] [(1,10),(2,20)]).Perm
        [(1,10),(2,20)] ∧
     (mergeTables [((1:Int),(10:Int)),(2,20)] [(1,10),(2,20)]).length =
        [((1:Int),(10:Int)),(2,20)].length ∧
     (keys (mergeTables [((1:Int),(10:Int)),(2,20)] [(1,10),(2,20)])).Nodup ∧
     ([((1:Int),(10:Int)),(2,20)].Pairwise (fun a b => a.1 ≤ b.1) →
      mergeTables [((1:Int),(10:Int)),(2,20)] [(1,10),(2,20)] =
        [(1,10),(2,20)])) :=
  ⟨by decide, merge_self_idempotent _ (by decide)⟩

/-! ## Lemmas about the chunker -/

theorem chunksOf_nil {α : Type} (n : Nat) : chunksOf n ([] : List α) = [] := by
  rw [chunksOf]

theorem chunksOf_cons {α : Type} (n : Nat) (x : α) (xs : List α) :
    chunksOf n (x :: xs) =
      List.take (n + 1) (x :: xs) :: chunksOf n (List.drop n xs) := by
  rw [chunksOf]

theorem chunksOf_flatten {α : Type} (n : Nat) (l : List α) :
    (chunksOf n l).flatten = l := by
  have H : ∀ m, ∀ l : List α, l.length ≤ m → (chunksOf n l).flatten = l := by
    intro m
    induction m with
    | zero =>
      intro l hl
      rw [List.length_eq_zero.mp (Nat.le_zero.mp hl), chunksOf_nil]
      rfl
    | succ m ih =>
      intro l hl
      cases l with
      | nil => rw [chunksOf_nil]; rfl
      | cons x xs =>
        have hxs : xs.length ≤ m := by simpa using hl
        rw [chunksOf_cons, List.flatten_cons,
          ih (List.drop n xs) (by rw [List.length_drop]; omega)]
        have hdr : List.drop n xs = List.drop (n + 1) (x :: xs) := rfl
        rw [hdr, List.take_append_drop]
  exact H l.length l le_rfl

theorem chunksOf_dropLast_length {α : Type} (n : Nat) (l : List α) :
    ∀ c ∈ (chunksOf n l).dropLast, c.length = n + 1 := by
  have H : ∀ m, ∀ l : List α, l.length ≤ m →
      ∀ c ∈ (chunksOf n l).dropLast, c.length = n + 1 := by
    intro m
    induction m with
    | zero =>
      intro l hl c hc
      rw [List.length_eq_zero.mp (Nat.le_zero.mp hl), chunksOf_nil] at hc
      cases hc
    | succ m ih =>
      intro l hl c hc
      cases l with
      | nil => rw [chunksOf_nil] at hc; cases hc
      | cons x xs =>
        have hxs : xs.length ≤ m := by simpa using hl
        rw [chunksOf_cons] at hc
        cases hrest : chunksOf n (List.drop n xs) with
        | nil => rw [hrest] at hc; cases hc
        | cons r rs =>
          rw [hrest, List.dropLast_cons₂] at hc
          rcases List.mem_cons.mp hc with h | h
          · subst h
            have hne : List.drop n xs ≠ [] := by
              intro h0
              rw [h0, chunksOf_nil] at hrest
              cases hrest
            have hlen : n < xs.length := by
              by_contra h0
              exact hne (List.drop_eq_nil_of_le (by omega))
            rw [List.length_take, List.length_cons]
            exact Nat.min_eq_left (by omega)
          · rw [← hrest] at h
            exact ih (List.drop n xs) (by rw [List.length_drop]; omega) c h
  exact H l.length l le_rfl

theorem chunksOf_getLast_length {α : Type} (n : Nat) (l : List α)
    (hl : l ≠ []) :
    ∃ c, (chunksOf n l).getLast? = some c ∧
      1 ≤ c.length ∧ c.length ≤ n + 1 := by
  have H : ∀ m, ∀ l : List α, l.length ≤ m → l ≠ [] →
      ∃ c, (chunksOf n l).getLast? = some c ∧
        1 ≤ c.length ∧ c.length ≤ n + 1 := by
    intro m
    induction m with
    | zero =>
      intro l hl hne
      exact absurd (List.length_eq_zero.mp (Nat.le_zero.mp hl)) hne
    | succ m ih =>
      intro l hl hne
      cases l with
      | nil => exact absurd rfl hne
      | cons x xs =>
        have hxs : xs.length ≤ m := by simpa using hl
        rw [chunksOf_cons]
        cases hrest : chunksOf n (List.drop n xs) with
        | nil =>
          refine ⟨List.take (n + 1) (x :: xs), rfl, ?_, ?_⟩
          · rw [List.length_take, List.length_cons]
            omega
          · rw [List.length_take]
            exact Nat.min_le_left _ _
        | cons r rs =>
          have hdne : List.drop n xs ≠ [] := by
            intro h0
            rw [h0, chunksOf_nil] at hrest
            cases hrest
          obtain ⟨c, hc1, hc2, hc3⟩ :=
            ih (List.drop n xs) (by rw [List.length_drop]; omega) hdne
          refine ⟨c, ?_, hc2, hc3⟩
          rw [hrest] at hc1
          rw [List.getLast?_cons_cons]
          exact hc1
  exact H l.length l le_rfl hl

theorem rangeMapChunks {α : Type} (n : Nat) (l : List α) :
    (List.range ((l.length + n) / (n + 1))).map
      (fun k => List.take (n + 1) (List.drop ((n + 1) * k) l)) =
      chunksOf n l := by
  have H : ∀ m, ∀ l : List α, l.length ≤ m →
      (List.range ((l.length + n) / (n + 1))).map
        (fun k => List.take (n + 1) (List.drop ((n + 1) * k) l)) =
        chunksOf n l := by
    intro m
    induction m with
    | zero =>
      intro l hl
      rw [List.length_eq_zero.mp (Nat.le_zero.mp hl), chunksOf_nil]
      rw [List.length_nil, Nat.zero_add, Nat.div_eq_of_lt (by omega)]
      rfl
    | succ m ih =>
      intro l hl
      cases l with
      | nil =>
        rw [chunksOf_nil, List.length_nil, Nat.zero_add,
          Nat.div_eq_of_lt (by omega)]
        rfl
      | cons x xs =>
        have hxs : xs.length ≤ m := by simpa using hl
        by_cases hsmall : (x :: xs).length ≤ n + 1
        · have hcount : ((x :: xs).length + n) / (n + 1) = 1 := by
            rw [List.length_cons] at hsmall ⊢
            exact Nat.div_eq_of_lt_le (by omega) (by omega)
          have hr1 : List.range 1 = [0] := by decide
          rw [hcount, hr1, List.map_cons, List.map_nil,
            Nat.mul_zero, List.drop_zero, chunksOf_cons]
          have hd : List.drop n xs = [] := by
            apply List.drop_eq_nil_of_le
            rw [List.length_cons] at hsmall
            omega
          rw [hd, chunksOf_nil]
        · push_neg at hsmall
          have hcount : ((x :: xs).length + n) / (n + 1) =
              ((List.drop (n + 1) (x :: xs)).length + n) / (n + 1) + 1 := by
            rw [List.length_drop]
            have h1 : (x :: xs).length + n =
                ((x :: xs).length - (n + 1) + n) + (n + 1) := by omega
            rw [h1, Nat.add_div_right _ (Nat.succ_pos n)]
          rw [hcount, List.range_succ_eq_map, List.map_cons, List.map_map,
            Nat.mul_zero, List.drop_zero]
          have hstep :
              ((fun k => List.take (n + 1) (List.drop ((n + 1) * k) (x :: xs)))
                ∘ Nat.succ) =
              fun k => List.take (n + 1)
                (List.drop ((n + 1) * k) (List.drop (n + 1) (x :: xs))) := by
            funext k
            simp only [Function.comp_apply, List.drop_drop]
            rw [Nat.mul_succ, Nat.add_comm ((n+1) * k) (n+1)]
          rw [hstep,
            ih (List.drop (n + 1) (x :: xs))
              (by rw [List.length_drop, List.length_cons]; omega),
            chunksOf_cons]
          rfl
  exact H l.length l le_rfl

theorem chunk_list_eq_chunksOf {α : Type} (items : List α) (n : Nat) :
    chunk_list items ((n + 1 : Nat) : Int) = .ok (chunksOf n items) := by
  have hne : ¬ ((n + 1 : Nat) : Int) = 0 := by
    exact_mod_cast Nat.succ_ne_zero n
  have hpos : (0 : Int) < ((n + 1 : Nat) : Int) := by
    exact_mod_cast Nat.succ_pos n
  unfold chunk_list pyRange
  rw [if_neg hne]
  simp only [Except.map]
  congr 1
  unfold pyRangeLen
  rw [if_pos hpos]
  by_cases hnil : items = []
  · subst hnil
    simp [chunksOf_nil]
  · have hlen : 0 < items.length := List.length_pos.mpr hnil
    rw [if_neg (by exact_mod_cast (by omega : ¬ (items.length : Int) ≤ 0))]
    rw [List.map_map]
    simp only [Function.comp, Int.zero_add, Int.sub_zero, ← Int.natCast_mul,
      Int.toNat_natCast, Nat.add_sub_cancel]
    exact rangeMapChunks n items

/-- Claim C6: for every list and every positive chunk size, chunk_list
(utils.py lines 229-239) succeeds with contiguous chunks whose
concatenation reproduces the list in order; every chunk but the last has
exactly size elements, and the last has between 1 and size elements when
the list is non-empty. -/
theorem chunk_list_spec {α : Type} (items : List α) (size : Int)
    (h : 0 < size) :
    ∃ cs, chunk_list items size = .ok cs ∧
      cs.flatten = items ∧
      (∀ c ∈ cs.dropLast, c.length = size.toNat) ∧
      (items ≠ [] → ∃ c, cs.getLast? = some c ∧
        1 ≤ c.length ∧ c.length ≤ size.toNat) := by
  obtain ⟨n, hn⟩ : ∃ n : Nat, size.toNat = n + 1 := ⟨size.toNat - 1, by omega⟩
  have hsize : size = ((n + 1 : Nat) : Int) := by omega
  refine ⟨chunksOf n items, ?_, ?_, ?_, ?_⟩
  · rw [hsize]
    exact chunk_list_eq_chunksOf items n
  · exact chunksOf_flatten n items
  · rw [hn]
    exact chunksOf_dropLast_length n items
  · intro hne
    rw [hn]
    exact chunksOf_getLast_length n items hne

/-- Witness for C6 at a seven-element list with chunk size 3. -/
theorem chunk_list_spec_witness :
    ((0 : Int) < 3) ∧
    (∃ cs, chunk_list [1,2,3,4,5,6,7] (3 : Int) = .ok cs ∧
      cs.flatten = [1,2,3,4,5,6,7] ∧
      (∀ c ∈ cs.dropLast, c.length = (3 : Int).toNat) ∧
      ([1,2,3,4,5,6,7] ≠ ([] : List Nat) → ∃ c, cs.getLast? = some c ∧
        1 ≤ c.length ∧ c.length ≤ (3 : Int).toNat)) :=
  ⟨by decide, chunk_list_spec [1,2,3,4,5,6,7] 3 (by decide)⟩

/-- Claim C8 (amended): chunk_list signals an error only for chunk size
exactly 0 (Python range raises ValueError on a zero step); for a
strictly negative size it silently returns the empty chunk list, because
range(0, len, negative) is empty. -/
theorem chunk_list_nonpositive_size {α : Type} (items : List α)
    (size : Int) (hneg : size < 0) :
    chunk_list items 0 = .error "range() arg 3 must not be zero" ∧
    chunk_list items size = .ok [] := by
  constructor
  · rfl
  · unfold chunk_list pyRange
    rw [if_neg (by omega : ¬ size = 0)]
    simp only [Except.map]
    congr 1
    unfold pyRangeLen
    rw [if_neg (by omega : ¬ (0 : Int) < size),
      if_pos (by exact_mod_cast Int.ofNat_nonneg items.length :
        (0 : Int) ≤ (items.length : Int))]
    rfl

/-- Witness for C8's amended claim at a one-element list and size -1. -/
theorem chunk_list_nonpositive_size_witness :
    ((-1 : Int) < 0) ∧
    (chunk_list [(0 : Nat)] 0 = .error "range() arg 3 must not be zero" ∧
     chunk_list [(0 : Nat)] (-1) = .ok []) :=
  ⟨by decide, chunk_list_nonpositive_size [(0 : Nat)] (-1) (by decide)⟩

/-- Counterexample to C8 as stated: a negative chunk size does not
signal an error — chunk_list with size -1 silently returns the empty
result. -/
theorem chunk_list_negative_no_error :
    chunk_list [(0 : Nat)] (-1) = .ok ([] : List (List Nat)) := by
  rfl

/-! ## Retry exhaustion and backoff claims -/

theorem fetch_batch_price_data_trace {α : Type} (tickers : List String)
    (remoteB : Nat → RemoteOutcome (List (String × α))) (maxRetries : Nat)
    (h : tickers ≠ []) :
    (fetch_batch_price_data tickers remoteB maxRetries).2 =
      (runRetryAttempts BATCH_DELAY 5 remoteB (List.range maxRetries)).2 := by
  unfold fetch_batch_price_data
  rw [if_neg h]
  rcases hr : runRetryAttempts BATCH_DELAY 5 remoteB (List.range maxRetries)
    with ⟨r, es⟩
  cases r <;> rfl

/-- Claim C2: when every remote attempt signals the rate limit, both
fetch_with_retry and fetch_batch_price_data return the empty result map
after max_retries attempts instead of raising, and the per-ticker loop
of a multi-symbol run keeps exactly the symbols that have data, skipping
the failed ones rather than aborting. -/
theorem rate_limit_exhaustion_soft {α : Type}
    (remote : Nat → RemoteOutcome α)
    (remoteB : Nat → RemoteOutcome (List (String × α)))
    (perTicker : String → Nat → RemoteOutcome α)
    (tickers batch : List String) (priceData : String → Option α)
    (maxRetries : Nat)
    (h1 : ∀ i, i < maxRetries → remote i = .rateLimited)
    (h2 : ∀ i, i < maxRetries → remoteB i = .rateLimited)
    (h3 : ∀ t i, i < maxRetries → perTicker t i = .rateLimited) :
    (fetch_with_retry none remote maxRetries).1 = none ∧
    (fetch_batch_price_data tickers remoteB maxRetries).1 = [] ∧
    processBatch batch priceData (fun _ => none) perTicker maxRetries =
      batch.filterMap (fun t => (priceData t).map (fun d => (t, d))) ∧
    processBatch batch (fun _ => none) (fun _ => none) perTicker
      maxRetries = [] := by
  have hrun : ∀ (rm : Nat → RemoteOutcome α),
      (∀ i, i < maxRetries → rm i = .rateLimited) →
      (fetch_with_retry none rm maxRetries).1 = none := by
    intro rm hrm
    show (runRetryAttempts REQUEST_DELAY 3 rm (List.range maxRetries)).1 = none
    rw [runRetryAttempts_all_rateLimited REQUEST_DELAY 3 rm
      (List.range maxRetries) (fun i hi => hrm i (List.mem_range.mp hi))]
  have hbatch : (fetch_batch_price_data tickers remoteB maxRetries).1 = [] := by
    unfold fetch_batch_price_data
    by_cases ht : tickers = []
    · rw [if_pos ht]
    · rw [if_neg ht,
        runRetryAttempts_all_rateLimited BATCH_DELAY 5 remoteB
          (List.range maxRetries) (fun i hi => h2 i (List.mem_range.mp hi))]
  have hproc : ∀ (b : List String) (pd : String → Option α),
      processBatch b pd (fun _ => none) perTicker maxRetries =
        b.filterMap (fun t => (pd t).map (fun d => (t, d))) := by
    intro b pd
    induction b with
    | nil => rfl
    | cons t rest ih =>
      simp only [processBatch, ih, List.filterMap_cons]
      cases hpd : pd t with
      | some d => rfl
      | none =>
        rw [hrun (perTicker t) (fun i hi => h3 t i hi)]
        rfl
  refine ⟨hrun remote h1, hbatch, hproc batch priceData, ?_⟩
  rw [hproc batch (fun _ => none)]
  simp

/-- Witness for C2: three attempts, every attempt rate limited, a batch
of two symbols where only AAPL has batch price data. -/
theorem rate_limit_exhaustion_soft_witness :
    ((∀ i, i < 3 →
        (fun _ : Nat => (RemoteOutcome.rateLimited : RemoteOutcome Nat)) i =
          .rateLimited) ∧
     (∀ t : String, ∀ i, i < 3 →
        (fun (_ : String) (_ : Nat) =>
          (RemoteOutcome.rateLimited : RemoteOutcome Nat)) t i =
          .rateLimited)) ∧
    ((fetch_with_retry (α := Nat) none (fun _ => .rateLimited) 3).1 = none ∧
     (fetch_batch_price_data (α := Nat) ["AAPL", "MSFT"]
        (fun _ => .rateLimited) 3).1 = [] ∧
     processBatch (α := Nat) ["AAPL", "MSFT"]
        (fun t => if t = "AAPL" then some 1 else none) (fun _ => none)
        (fun _ _ => .rateLimited) 3 =
       (["AAPL", "MSFT"].filterMap (fun t =>
         ((fun t => if t = "AAPL" then some 1 else none) t).map
           (fun d => (t, d)))) ∧
     processBatch (α := Nat) ["AAPL", "MSFT"] (fun _ => none) (fun _ => none)
        (fun _ _ => .rateLimited) 3 = []) :=
  ⟨⟨fun _ _ => rfl, fun _ _ _ => rfl⟩,
   rate_limit_exhaustion_soft (fun _ => .rateLimited) (fun _ => .rateLimited)
     (fun _ _ => .rateLimited) ["AAPL", "MSFT"] ["AAPL", "MSFT"]
     (fun t => if t = "AAPL" then some 1 else none) 3
     (fun _ _ => rfl) (fun _ _ => rfl) (fun _ _ _ => rfl)⟩

/-- Claim C3 (amended): the backoff sleep before the next attempt after
a rate-limit failure at 0-based attempt i is base_timeout * 2 ^ i plus a
uniform jitter in fetch_with_retry (jitter bound 3), in
fetch_batch_price_data (jitter bound 5) and in the per-symbol fallback
loop of fetch_data_from_date (jitter bound 3); the batch-level
rate-limit sleep of fetch_data_from_date instead uses base_timeout *
((2 ^ batch_idx) mod 5), which is periodic in the batch index with
period 4, not exponential in any attempt number. -/
theorem backoff_formula {α : Type} (remote : Nat → RemoteOutcome α)
    (remoteB : Nat → RemoteOutcome (List (String × α)))
    (tickers : List String) (maxRetries i : Nat) (hi : i < maxRetries) :
    ((∀ j, j < i → (remote j).isOk = false) → remote i = .rateLimited →
      SleepEvent.backoff (RATE_LIMIT_DEFAULT_TIMEOUT * 2 ^ i) 3 ∈
        (fetch_with_retry none remote maxRetries).2) ∧
    (tickers ≠ [] → (∀ j, j < i → (remoteB j).isOk = false) →
      remoteB i = .rateLimited →
      SleepEvent.backoff (RATE_LIMIT_DEFAULT_TIMEOUT * 2 ^ i) 5 ∈
        (fetch_batch_price_data tickers remoteB maxRetries).2) ∧
    ((∀ j, j < i → remote j = .rateLimited) → remote i = .rateLimited →
      SleepEvent.backoff (RATE_LIMIT_DEFAULT_TIMEOUT * 2 ^ i) 3 ∈
        (dateRangeFallbackFetch remote maxRetries).2) ∧
    (∀ b : Nat, dateRangeBatchRateLimitSleep b =
      .backoff (RATE_LIMIT_DEFAULT_TIMEOUT * (2 ^ b % 5)) 5) ∧
    (∀ b : Nat,
      dateRangeBatchBackoffBase (b + 4) = dateRangeBatchBackoffBase b) := by
  obtain ⟨l₂, hsplit⟩ := range_split i maxRetries hi
  refine ⟨?_, ?_, ?_, fun b => rfl, ?_⟩
  · intro hbefore hrl
    show SleepEvent.backoff (RATE_LIMIT_DEFAULT_TIMEOUT * 2 ^ i) 3 ∈
      (runRetryAttempts REQUEST_DELAY 3 remote (List.range maxRetries)).2
    rw [hsplit]
    exact runRetryAttempts_backoff_mem REQUEST_DELAY 3 remote
      (List.range i) l₂ i
      (fun j hj => hbefore j (List.mem_range.mp hj)) hrl
  · intro ht hbefore hrl
    rw [fetch_batch_price_data_trace tickers remoteB maxRetries ht, hsplit]
    exact runRetryAttempts_backoff_mem BATCH_DELAY 5 remoteB
      (List.range i) l₂ i
      (fun j hj => hbefore j (List.mem_range.mp hj)) hrl
  · intro hbefore hrl
    show SleepEvent.backoff (RATE_LIMIT_DEFAULT_TIMEOUT * 2 ^ i) 3 ∈
      (runDateRangeFallback remote (List.range maxRetries)).2
    rw [hsplit]
    exact runDateRangeFallback_backoff_mem remote (List.range i) l₂ i
      (fun j hj => hbefore j (List.mem_range.mp hj)) hrl
  · intro b
    unfold dateRangeBatchBackoffBase
    congr 1
    rw [Nat.pow_add]
    have h16 : (2 : Nat) ^ 4 = 16 := by decide
    rw [h16, Nat.mul_mod]
    omega

/-- Witness for C3's amended claim: attempt 1 of 3, every attempt rate
limited; the batch-level base repeats with period 4. -/
theorem backoff_formula_witness :
    ((1 : Nat) < 3) ∧
    (SleepEvent.backoff (RATE_LIMIT_DEFAULT_TIMEOUT * 2 ^ 1) 3 ∈
      (fetch_with_retry (α := Nat) none (fun _ => .rateLimited) 3).2) ∧
    (SleepEvent.backoff (RATE_LIMIT_DEFAULT_TIMEOUT * 2 ^ 1) 5 ∈
      (fetch_batch_price_data (α := Nat) ["AAPL"]
        (fun _ => .rateLimited) 3).2) ∧
    (SleepEvent.backoff (RATE_LIMIT_DEFAULT_TIMEOUT * 2 ^ 1) 3 ∈
      (dateRangeFallbackFetch (α := Nat) (fun _ => .rateLimited) 3).2) ∧
    (dateRangeBatchRateLimitSleep 3 =
      .backoff (RATE_LIMIT_DEFAULT_TIMEOUT * (2 ^ 3 % 5)) 5) ∧
    (dateRangeBatchBackoffBase (3 + 4) = dateRangeBatchBackoffBase 3) :=
  have h := backoff_formula (α := Nat) (fun _ => .rateLimited)
    (fun _ => .rateLimited) ["AAPL"] 3 1 (by decide)
  ⟨by decide,
   h.1 (fun _ _ => rfl) rfl,
   h.2.1 (by decide) (fun _ _ => rfl) rfl,
   h.2.2.1 (fun _ _ => rfl) rfl,
   h.2.2.2.1 3,
   h.2.2.2.2 3⟩

/-- Counterexample to C3 as stated: at batch index 3 the batch-level
rate-limit wait base of fetch_data_from_date is 30 * (2 ^ 3 mod 5) = 90
seconds, not base_timeout * 2 ^ 3 = 240. -/
theorem date_range_batch_backoff_not_exponential :
    dateRangeBatchBackoffBase 3 = 90 ∧
    ¬ dateRangeBatchBackoffBase 3 = RATE_LIMIT_DEFAULT_TIMEOUT * 2 ^ 3 := by
  decide

/-- Claim C9 (amended): in fetch_with_retry and fetch_batch_price_data a
non-rate-limit failure is logged, followed by the fixed pacing delay
(REQUEST_DELAY resp. BATCH_DELAY), and the operation is retried within
the same attempt budget — k leading transient errors still end in
success when attempt k is within budget; but in the per-symbol fallback
loop of fetch_data_from_date a non-rate-limit error terminates that
symbol's retries immediately, with no further attempt and no pacing
sleep inside the loop. -/
theorem other_error_retry_behavior {α : Type} (d : α) (k maxRetries : Nat)
    (hk : k < maxRetries) :
    fetch_with_retry none
        (fun i => if i < k then .otherError else .ok d) maxRetries =
      (some d, List.replicate k (.fixedDelay REQUEST_DELAY)) ∧
    (∀ (tickers : List String) (m : List (String × α)), tickers ≠ [] →
      fetch_batch_price_data tickers
          (fun i => if i < k then .otherError else .ok m) maxRetries =
        (m, List.replicate k (.fixedDelay BATCH_DELAY))) ∧
    (0 < k →
      dateRangeFallbackFetch
          (fun i => if i < k then .otherError else .ok d) maxRetries =
        (none, [])) := by
  obtain ⟨l₂, hsplit⟩ := range_split k maxRetries hk
  have hrunOf : ∀ (β : Type) (fixedSecs jitterMax : Nat) (v : β),
      runRetryAttempts fixedSecs jitterMax
          (fun i => if i < k then .otherError else .ok v)
          (List.range maxRetries) =
        (some v, List.replicate k (.fixedDelay fixedSecs)) := by
    intro β fixedSecs jitterMax v
    rw [hsplit]
    have h := runRetryAttempts_otherError_then_ok fixedSecs jitterMax
      (fun i => if i < k then .otherError else .ok v)
      (List.range k) l₂ k v
      (fun j hj => by simp [List.mem_range.mp hj])
      (by simp)
    rwa [List.length_range] at h
  refine ⟨?_, ?_, ?_⟩
  · show runRetryAttempts REQUEST_DELAY 3 _ (List.range maxRetries) = _
    exact hrunOf α REQUEST_DELAY 3 d
  · intro tickers m ht
    unfold fetch_batch_price_data
    rw [if_neg ht, hrunOf (List (String × α)) BATCH_DELAY 5 m]
  · intro hkpos
    obtain ⟨l₃, hsplit0⟩ := range_split 0 maxRetries (by omega)
    show runDateRangeFallback _ (List.range maxRetries) = _
    rw [hsplit0, List.range_zero, List.nil_append]
    simp only [runDateRangeFallback, if_pos hkpos]

/-- Witness for C9's amended claim: one transient error then success,
with budget 3. -/
theorem other_error_retry_behavior_witness :
    ((1 : Nat) < 3) ∧
    (fetch_with_retry (α := Nat) none
        (fun i => if i < 1 then .otherError else .ok 7) 3 =
      (some 7, List.replicate 1 (.fixedDelay REQUEST_DELAY))) ∧
    (fetch_batch_price_data ["AAPL"]
        (fun i => if i < 1 then .otherError else .ok [("AAPL", (7 : Nat))]) 3 =
      ([("AAPL", 7)], List.replicate 1 (.fixedDelay BATCH_DELAY))) ∧
    (dateRangeFallbackFetch (α := Nat)
        (fun i => if i < 1 then .otherError else .ok 7) 3 =
      (none, [])) :=
  have h := other_error_retry_behavior (α := Nat) 7 1 3 (by decide)
  ⟨by decide, h.1, h.2.1 ["AAPL"] [("AAPL", 7)] (by decide),
   h.2.2 (by decide)⟩

/-- Counterexample to C9 as stated: with a non-rate-limit error at
attempt 0 and success available at attempt 1 within a budget of 5, the
per-symbol fallback of fetch_data_from_date gives up at once and
returns nothing, while fetch_with_retry retries the same schedule to
success. -/
theorem date_range_fallback_breaks_on_other_error :
    (dateRangeFallbackFetch (α := Nat)
        (fun i => if i < 1 then .otherError else .ok 7) 5).1 = none ∧
    (fetch_with_retry (α := Nat) none
        (fun i => if i < 1 then .otherError else .ok 7) 5).1 = some 7 := by
  decide

/-! ## Cache freshness claims -/

/-- A file system holding exactly one ticker directory and one parquet
table, used to exercise the freshness boundary. -/
def singleTableFS (dataDir ticker dataType : String) (t : PTable) :
    FileSystem where
  dirExists := fun p =>
    if p = tickerDirPath dataDir ticker then true else false
  file := fun p =>
    if p = kindFilePath dataDir ticker dataType then some t else none

/-- Claim C4: is_cache_valid is true iff the (ticker, kind) table exists
on disk (directory and file), its index is temporal with a maximum date,
and that maximum is at least now minus max_age_days; and at the boundary
with max_age_days = 1, a cached maximum of exactly now minus one day is
fresh while one second older is stale. -/
theorem is_cache_valid_spec (fs : FileSystem)
    (ticker dataDir dataType : String) (maxAgeDays now : Int) :
    (is_cache_valid fs ticker dataDir dataType maxAgeDays now = true ↔
      ∃ t : PTable,
        fs.file (kindFilePath dataDir ticker dataType) = some t ∧
        fs.dirExists (tickerDirPath dataDir ticker) = true ∧
        ∃ dates d, t.dtIndex = some dates ∧ dates.max? = some d ∧
          now - maxAgeDays * SECONDS_PER_DAY ≤ d) ∧
    (∀ nowB : Int,
      is_cache_valid
        (singleTableFS dataDir ticker dataType
          ⟨some [nowB - SECONDS_PER_DAY], 1⟩)
        ticker dataDir dataType 1 nowB = true) ∧
    (∀ nowB : Int,
      is_cache_valid
        (singleTableFS dataDir ticker dataType
          ⟨some [nowB - SECONDS_PER_DAY - 1], 1⟩)
        ticker dataDir dataType 1 nowB = false) := by
  refine ⟨?_, ?_, ?_⟩
  · cases hf : fs.file (kindFilePath dataDir ticker dataType) with
    | none => simp [is_cache_valid, hf]
    | some t =>
      cases hdir : fs.dirExists (tickerDirPath dataDir ticker) with
      | false => simp [is_cache_valid, get_latest_date, hf, hdir]
      | true =>
        cases hdt : t.dtIndex with
        | none => simp [is_cache_valid, get_latest_date, hf, hdir, hdt]
        | some dates =>
          cases hmax : dates.max? with
          | none => simp [is_cache_valid, get_latest_date, hf, hdir, hdt, hmax]
          | some d =>
            simp [is_cache_valid, get_latest_date, hf, hdir, hdt, hmax]
  · intro nowB
    have hcmp : nowB - 1 * SECONDS_PER_DAY ≤ nowB - SECONDS_PER_DAY := by
      unfold SECONDS_PER_DAY
      omega
    simp [is_cache_valid, get_latest_date, singleTableFS, List.max?, hcmp]
  · intro nowB
    have hcmp : ¬ nowB - 1 * SECONDS_PER_DAY ≤ nowB - SECONDS_PER_DAY - 1 := by
      unfold SECONDS_PER_DAY
      omega
    simp [is_cache_valid, get_latest_date, singleTableFS, List.max?, hcmp]

/-! ## Prioritization claims -/

theorem prioStep_foldl (fs : FileSystem) (dataDir : String)
    (maxAgeDays now : Int) (l : List String) :
    ∀ u o v : List String,
    l.foldl (prioStep fs dataDir maxAgeDays now) (u, o, v) =
      (u ++ l.filter (fun t => !fs.dirExists (tickerDirPath dataDir t)),
       o ++ l.filter (fun t => fs.dirExists (tickerDirPath dataDir t) &&
         !is_cache_valid fs t dataDir "ohlcv" maxAgeDays now),
       v ++ l.filter (fun t => fs.dirExists (tickerDirPath dataDir t) &&
         is_cache_valid fs t dataDir "ohlcv" maxAgeDays now)) := by
  induction l with
  | nil => intro u o v; simp
  | cons t rest ih =>
    intro u o v
    rw [List.foldl_cons]
    cases hb : fs.dirExists (tickerDirPath dataDir t) with
    | false =>
      have hstep : prioStep fs dataDir maxAgeDays now (u, o, v) t =
          (u ++ [t], o, v) := by
        simp [prioStep, hb]
      rw [hstep, ih]
      simp [List.filter_cons, hb]
    | true =>
      cases hv : is_cache_valid fs t dataDir "ohlcv" maxAgeDays now with
      | false =>
        have hstep : prioStep fs dataDir maxAgeDays now (u, o, v) t =
            (u, o ++ [t], v) := by
          simp [prioStep, hb, hv]
        rw [hstep, ih]
        simp [List.filter_cons, hb, hv]
      | true =>
        have hstep : prioStep fs dataDir maxAgeDays now (u, o, v) t =
            (u, o, v ++ [t]) := by
          simp [prioStep, hb, hv]
        rw [hstep, ih]
        simp [List.filter_cons, hb, hv]

theorem three_filter_perm (fs : FileSystem) (dataDir : String)
    (maxAgeDays now : Int) (l : List String) :
    (l.filter (fun t => !fs.dirExists (tickerDirPath dataDir t)) ++
     l.filter (fun t => fs.dirExists (tickerDirPath dataDir t) &&
       !is_cache_valid fs t dataDir "ohlcv" maxAgeDays now) ++
     l.filter (fun t => fs.dirExists (tickerDirPath dataDir t) &&
       is_cache_valid fs t dataDir "ohlcv" maxAgeDays now)).Perm l := by
  induction l with
  | nil => simp
  | cons t rest ih =>
    cases hb : fs.dirExists (tickerDirPath dataDir t) with
    | false =>
      simp only [List.filter_cons, hb, Bool.not_false, Bool.false_and,
        if_true, if_false, ite_false, ite_true, List.cons_append]
      exact ih.cons t
    | true =>
      cases hv : is_cache_valid fs t dataDir "ohlcv" maxAgeDays now with
      | false =>
        simp only [List.filter_cons, hb, hv, Bool.not_true, Bool.not_false,
          Bool.true_and, Bool.and_self, if_true, if_false, ite_false,
          ite_true, List.cons_append]
        have ih' := ih
        rw [List.append_assoc] at ih' ⊢
        exact List.perm_middle.trans (ih'.cons t)
      | true =>
        simp only [List.filter_cons, hb, hv, Bool.not_true, Bool.true_and,
          if_true, if_false, ite_false, ite_true]
        exact List.perm_middle.trans (ih.cons t)

/-- A concrete store: directories for S1, S2 and F1; only F1 holds a
fresh ohlcv table (maximum date 0). -/
def exampleStoreFS : FileSystem where
  dirExists := fun p =>
    if p = "data/S1" ∨ p = "data/S2" ∨ p = "data/F1" then true else false
  file := fun p =>
    if p = "data/F1/ohlcv.parquet" then some ⟨some [0], 1⟩ else none

/-- Claim C5: prioritize_tickers returns exactly the symbols with no
store directory, then those with a directory but an invalid cache, then
the fresh ones, each group in original relative order (stated as
filters of the input); the output is a permutation of the input, and
the 3-uncached / 2-stale / 1-fresh example produces exactly that
order. -/
theorem prioritize_tickers_spec (fs : FileSystem) (tickers : List String)
    (dataDir : String) (maxAgeDays now : Int) :
    (prioritize_tickers fs tickers dataDir maxAgeDays now =
      tickers.filter (fun t => !fs.dirExists (tickerDirPath dataDir t)) ++
      tickers.filter (fun t => fs.dirExists (tickerDirPath dataDir t) &&
        !is_cache_valid fs t dataDir "ohlcv" maxAgeDays now) ++
      tickers.filter (fun t => fs.dirExists (tickerDirPath dataDir t) &&
        is_cache_valid fs t dataDir "ohlcv" maxAgeDays now)) ∧
    (prioritize_tickers fs tickers dataDir maxAgeDays now).Perm tickers ∧
    prioritize_tickers exampleStoreFS ["U1", "S1", "U2", "F1", "S2", "U3"]
      "data" 1 0 = ["U1", "U2", "U3", "S1", "S2", "F1"] := by
  have heq : prioritize_tickers fs tickers dataDir maxAgeDays now =
      tickers.filter (fun t => !fs.dirExists (tickerDirPath dataDir t)) ++
      tickers.filter (fun t => fs.dirExists (tickerDirPath dataDir t) &&
        !is_cache_valid fs t dataDir "ohlcv" maxAgeDays now) ++
      tickers.filter (fun t => fs.dirExists (tickerDirPath dataDir t) &&
        is_cache_valid fs t dataDir "ohlcv" maxAgeDays now) := by
    unfold prioritize_tickers
    rw [prioStep_foldl fs dataDir maxAgeDays now tickers [] [] []]
    simp
  refine ⟨heq, ?_, ?_⟩
  · rw [heq]
    exact three_filter_perm fs dataDir maxAgeDays now tickers
  · decide

/-! ## Persistence claims -/

theorem string_append_left_cancel (s a b : String) (h : s ++ a = s ++ b) :
    a = b := by
  have hd : (s ++ a).data = (s ++ b).data := by rw [h]
  simp [String.append] at hd
  exact String.toList_inj.mp (by simpa [String.toList] using hd)

theorem string_append_right_cancel (a b s : String) (h : a ++ s = b ++ s) :
    a = b := by
  have hd : (a ++ s).data = (b ++ s).data := by rw [h]
  simp [String.append] at hd
  exact String.toList_inj.mp (by simpa [String.toList] using hd)

theorem kindFilePath_inj (dataDir ticker k₁ k₂ : String)
    (h : kindFilePath dataDir ticker k₁ = kindFilePath dataDir ticker k₂) :
    k₁ = k₂ := by
  unfold kindFilePath joinPath at h
  have h₁ := string_append_left_cancel _ _ _ h
  exact string_append_right_cancel _ _ _ h₁

theorem saveTickerDataGo_changes (dataDir ticker : String) :
    ∀ (data : List (String × Option PTable)) (fs : FileSystem) (p : String),
    (saveTickerDataGo dataDir ticker data fs).file p ≠ fs.file p →
    ∃ t : PTable, (saveTickerDataGo dataDir ticker data fs).file p = some t ∧
      t.nrows ≠ 0 := by
  intro data
  induction data with
  | nil => intro fs p h; exact absurd rfl h
  | cons kv rest ih =>
    intro fs p h
    rcases kv with ⟨kind, df⟩
    cases df with
    | none => exact ih fs p h
    | some t =>
      by_cases hz : t.nrows = 0
      · rw [saveTickerDataGo, if_pos hz] at h ⊢
        exact ih fs p h
      · rw [saveTickerDataGo, if_neg hz] at h ⊢
        set fs₁ := writeFile fs (kindFilePath dataDir ticker kind) t with hfs₁
        by_cases hrest : (saveTickerDataGo dataDir ticker rest fs₁).file p =
            fs₁.file p
        · rw [hrest]
          rw [hrest] at h
          by_cases hp : p = kindFilePath dataDir ticker kind
          · refine ⟨t, ?_, hz⟩
            rw [hfs₁]
            simp [writeFile, hp]
          · exfalso
            apply h
            rw [hfs₁]
            simp [writeFile, hp]
        · exact ih fs₁ p hrest

theorem saveTickerDataGo_skips_empty (dataDir ticker : String)
    (k : String) :
    ∀ (data : List (String × Option PTable)) (fs : FileSystem),
    (∀ df, (k, df) ∈ data → df = none ∨ ∃ t, df = some t ∧ t.nrows = 0) →
    (saveTickerDataGo dataDir ticker data fs).file
        (kindFilePath dataDir ticker k) =
      fs.file (kindFilePath dataDir ticker k) := by
  intro data
  induction data with
  | nil => intro fs _; rfl
  | cons kv rest ih =>
    intro fs hk
    rcases kv with ⟨kind, df⟩
    have hkrest : ∀ df, (k, df) ∈ rest →
        df = none ∨ ∃ t, df = some t ∧ t.nrows = 0 :=
      fun df hdf => hk df (List.mem_cons_of_mem _ hdf)
    cases df with
    | none => exact ih fs hkrest
    | some t =>
      by_cases hz : t.nrows = 0
      · rw [saveTickerDataGo, if_pos hz]
        exact ih fs hkrest
      · rw [saveTickerDataGo, if_neg hz]
        have hkind : kind ≠ k := by
          intro hkk
          subst hkk
          rcases hk (some t) (List.mem_cons_self _ _) with h0 | ⟨t', ht', hz'⟩
          · cases h0
          · rw [Option.some_inj.mp ht'] at hz
            exact hz hz'
        rw [ih (writeFile fs (kindFilePath dataDir ticker kind) t) hkrest]
        simp only [writeFile]
        rw [if_neg (fun hpp : kindFilePath dataDir ticker k =
            kindFilePath dataDir ticker kind =>
          hkind (kindFilePath_inj dataDir ticker k kind hpp).symm)]

theorem save_data_for_tickers_changes (dataDir : String) :
    ∀ (td : List (String × List (String × Option PTable)))
      (fs : FileSystem) (p : String),
    (save_data_for_tickers td dataDir fs).file p ≠ fs.file p →
    ∃ t : PTable, (save_data_for_tickers td dataDir fs).file p = some t ∧
      t.nrows ≠ 0 := by
  intro td
  induction td with
  | nil => intro fs p h; exact absurd rfl h
  | cons entry rest ih =>
    intro fs p h
    rcases entry with ⟨ticker, data⟩
    rw [save_data_for_tickers] at h ⊢
    set fs₁ := (save_ticker_data ticker data dataDir fs).1 with hfs₁
    by_cases hrest : (save_data_for_tickers rest dataDir fs₁).file p =
        fs₁.file p
    · rw [hrest]
      rw [hrest] at h
      have hfile : fs₁.file p ≠ fs.file p := h
      have := saveTickerDataGo_changes dataDir ticker data
        (mkTickerDir fs dataDir ticker) p
      exact this hfile
    · exact ih fs₁ p hrest

/-- Claim C10: save_ticker_data never writes an empty (or missing)
table — any file-map entry it changes becomes a non-empty table, a kind
whose frames are all None or empty leaves the previously persisted file
for that (ticker, kind) untouched, and the bulk persister
save_data_for_tickers preserves the same invariant. -/
theorem save_never_writes_empty (fs : FileSystem) (ticker dataDir : String)
    (data : List (String × Option PTable)) :
    (∀ p, ((save_ticker_data ticker data dataDir fs).1).file p ≠ fs.file p →
      ∃ t : PTable,
        ((save_ticker_data ticker data dataDir fs).1).file p = some t ∧
        t.nrows ≠ 0) ∧
    (∀ k, (∀ df, (k, df) ∈ data →
        df = none ∨ ∃ t, df = some t ∧ t.nrows = 0) →
      ((save_ticker_data ticker data dataDir fs).1).file
          (kindFilePath dataDir ticker k) =
        fs.file (kindFilePath dataDir ticker k)) ∧
    (∀ (td : List (String × List (String × Option PTable))) (p : String),
      (save_data_for_tickers td dataDir fs).file p ≠ fs.file p →
      ∃ t : PTable, (save_data_for_tickers td dataDir fs).file p = some t ∧
        t.nrows ≠ 0) := by
  refine ⟨?_, ?_, ?_⟩
  · intro p h
    exact saveTickerDataGo_changes dataDir ticker data
      (mkTickerDir fs dataDir ticker) p h
  · intro k hk
    exact saveTickerDataGo_skips_empty dataDir ticker k data
      (mkTickerDir fs dataDir ticker) hk
  · intro td p h
    exact save_data_for_tickers_changes dataDir td fs p h

/-- Witness for C10: saving a map with a missing ohlcv frame and an
empty dividends frame writes nothing — the empty store is unchanged at
both paths. -/
theorem save_never_writes_empty_witness :
    (∀ df, ("ohlcv", df) ∈
        [("ohlcv", (none : Option PTable)),
         ("dividends", some ⟨some [1], 0⟩)] →
      df = none ∨ ∃ t, df = some t ∧ t.nrows = 0) ∧
    ((save_ticker_data "A"
        [("ohlcv", (none : Option PTable)),
         ("dividends", some ⟨some [1], 0⟩)] "d"
        ⟨fun _ => false, fun _ => none⟩).1).file
        (kindFilePath "d" "A" "ohlcv") =
      (⟨fun _ => false, fun _ => none⟩ : FileSystem).file
        (kindFilePath "d" "A" "ohlcv") :=
  have hdis : ∀ df : Option PTable, ("ohlcv", df) ∈
      [("ohlcv", (none : Option PTable)),
       ("dividends", some ⟨some [1], 0⟩)] →
      df = none ∨ ∃ t, df = some t ∧ t.nrows = 0 := fun df hdf => by
    rcases List.mem_cons.mp hdf with h | h
    · exact Or.inl (congrArg Prod.snd h)
    · rcases List.mem_cons.mp h with h' | h'
      · have hfst : ("ohlcv" : String) = "dividends" := congrArg Prod.fst h'
        exact absurd hfst (by decide)
      · cases h'
  ⟨hdis,
   (save_never_writes_empty ⟨fun _ => false, fun _ => none⟩ "A" "d"
      [("ohlcv", none), ("dividends", some ⟨some [1], 0⟩)]).2.1
     "ohlcv" hdis⟩

end YFS
